import Mathlib

/-!
# Verification of the curve-generation core of `smutch/sketches`

Shallow embedding of the two sketches `sand_spline` and `aeye` (Rust, nannou).
Floating-point scalars (`f32`/`f64`) are idealized as `ℚ`; `usize` arithmetic
is modelled on `ℕ` with explicit wrapping where the source can underflow.
External collaborators (the Perlin noise field, the `bspline` crate's
evaluator, nannou's ellipse circumference, the seeded `SmallRng` stream and the
easing function) are abstract function parameters: every claim below concerns
only the repository's own arithmetic and control flow, never the values those
collaborators return.
-/

/-- Wrapping subtraction on 64-bit `usize` values (release-mode Rust
semantics of `a - b`; faithful for operands below `2 ^ 64`). -/
def usize_sub (a b : ℕ) : ℕ :=
  if b ≤ a then a - b else 2 ^ 64 - (b - a)

/-- The divisor used by `linspace` to form the increment:
`(n - 1).max(0)` from `src/sand_spline/src/linspace.rs:26`.  On `usize`
the `.max(0)` is a no-op, so this is just the (wrapping) `n - 1`. -/
def linspaceDivisor (n : ℕ) : ℕ :=
  Nat.max (usize_sub n 1) 0

/-- The iterator state of `Linspace` (`src/sand_spline/src/linspace.rs:4-9`). -/
structure Linspace where
  increment : ℚ
  n : ℕ
  x : ℚ
  i : ℕ

/-- One step of the `Iterator` impl (`linspace.rs:14-21`): emit the current
`x`, advance it by `increment`, bump the index. -/
def Linspace.next (s : Linspace) : Option (ℚ × Linspace) :=
  if s.i = s.n then none
  else some (s.x, ⟨s.increment, s.n, s.x + s.increment, s.i + 1⟩)

/-- The constructor `linspace(from, to, n)` (`linspace.rs:24-31`).  The
increment is `(to - from) / (n - 1).max(0)`; in `ℚ` a zero divisor yields an
increment of `0` where IEEE `f32` would yield `±inf`/`NaN` — in either case the
increment is never emitted when `n ≤ 1`, so the produced sequences agree. -/
def linspace (a b : ℚ) (n : ℕ) : Linspace :=
  ⟨(b - a) / (linspaceDivisor n : ℚ), n, a, 0⟩

/-- Drain the iterator into a list.  `fuel` bounds the number of `next`
calls; the initial state emits exactly `n` values, so fuel `n` drains it. -/
def runLinspace : ℕ → Linspace → List ℚ
  | 0, _ => []
  | fuel + 1, s =>
    match s.next with
    | none => []
    | some (x, s') => x :: runLinspace fuel s'

/-- The full sequence produced by `linspace(a, b, n).collect()`. -/
def linspaceList (a b : ℚ) (n : ℕ) : List ℚ :=
  runLinspace n (linspace a b n)

/-- The increment of `linspace(a, b, n)` as a scalar. -/
def linStep (a b : ℚ) (n : ℕ) : ℚ :=
  (b - a) / (linspaceDivisor n : ℚ)

/-- The function `set_knots(domain, degree, npoints)` (`src/sand_spline/src/main.rs:18-25`
and the identical `src/aeye/src/main.rs:134-141`): `degree` zeros, then
`linspace(domain.0, domain.1, npoints - degree)` (wrapping `usize`
subtraction), then `degree + 1` copies of `domain.1`.  The function returns a
plain vector; the source has no error type and no failure path. -/
def set_knots (domain : ℚ × ℚ) (degree npoints : ℕ) : List ℚ :=
  List.replicate degree 0
    ++ linspaceList domain.1 domain.2 (usize_sub npoints degree)
    ++ List.replicate (degree + 1) domain.2

/-! ## Closed form of the linspace sequence -/

theorem runLinspace_closed (k : ℕ) :
    ∀ (fuel i : ℕ) (inc x : ℚ), k ≤ fuel →
      runLinspace fuel ⟨inc, i + k, x, i⟩
        = (List.range k).map (fun j : ℕ => x + (j : ℚ) * inc) := by
  induction k with
  | zero =>
    intro fuel i inc x _
    cases fuel with
    | zero => rfl
    | succ f => simp [runLinspace, Linspace.next]
  | succ k ih =>
    intro fuel i inc x hk
    cases fuel with
    | zero => omega
    | succ f =>
      have hne : i ≠ i + (k + 1) := by omega
      have hstate : i + (k + 1) = (i + 1) + k := by omega
      simp only [runLinspace, Linspace.next, hne, if_neg, reduceIte]
      rw [hstate, ih f (i + 1) inc (x + inc) (by omega)]
      rw [List.range_succ_eq_map, List.map_cons, List.map_map]
      have hfun : ((fun j : ℕ => x + (j : ℚ) * inc) ∘ Nat.succ)
          = fun j : ℕ => (x + inc) + (j : ℚ) * inc := by
        funext j
        simp only [Function.comp]
        push_cast
        ring
      rw [hfun]
      norm_num

/-- Closed form: `linspace(a, b, n)` yields `a + j * step` for `j < n`. -/
theorem linspaceList_eq (a b : ℚ) (n : ℕ) :
    linspaceList a b n
      = (List.range n).map (fun j : ℕ => a + (j : ℚ) * linStep a b n) := by
  have h := runLinspace_closed n n 0 (linStep a b n) a le_rfl
  simpa [linspaceList, linspace, linStep] using h

theorem linspaceList_length (a b : ℚ) (n : ℕ) :
    (linspaceList a b n).length = n := by
  simp [linspaceList_eq]

/-! ## C1 and C5: the missing guards -/

/-- Claim C1 (status: code_bug).  The spec requires `set_knots` to fail fast
with an `InvalidShapeError` whenever `npoints < degree + 1`; the source has no
error type and no failure path at all.  At the failing input
`domain = (0, 10)`, `degree = 4`, `npoints = 4` the interior linspace count is
`0` and the function silently returns a 9-element vector. -/
theorem set_knots_no_error_on_small_npoints :
    set_knots (0, 10) 4 4 = [0, 0, 0, 0, 10, 10, 10, 10, 10] := by
  simp [set_knots, linspaceList_eq, usize_sub, List.replicate]

/-- Claim C5 (status: code_bug).  The claimed divisor is `max(n - 1, 1)`, which
would never be zero; the source computes `(n - 1).max(0)`
(`linspace.rs:26`), a no-op clamp on `usize`.  At `n = 1` the divisor is `0`
and the step division is a genuine division by zero (IEEE: infinite
increment); the single emitted value is nevertheless `from`.  At `n = 0` the
`usize` subtraction underflows and wraps to `2 ^ 64 - 1`. -/
theorem linspace_divisor_zero_at_one :
    linspaceDivisor 1 = 0 ∧ linspaceDivisor 0 = 2 ^ 64 - 1 ∧
      linspaceList (0 : ℚ) 5 1 = [0] := by
  refine ⟨rfl, by decide, ?_⟩
  norm_num [linspaceList_eq, List.range_succ]

/-! ## Linspace sequence properties (C8) -/

theorem linspaceDivisor_of_pos (n : ℕ) (h : 1 ≤ n) :
    linspaceDivisor n = n - 1 := by
  simp [linspaceDivisor, usize_sub, h]

theorem linspaceList_one (a b : ℚ) : linspaceList a b 1 = [a] := by
  norm_num [linspaceList_eq, List.range_succ]

theorem linspaceList_head (a b : ℚ) (n : ℕ) (h : 1 ≤ n) :
    (linspaceList a b n).head? = some a := by
  obtain ⟨m, rfl⟩ : ∃ m, n = m + 1 := ⟨n - 1, by omega⟩
  rw [linspaceList_eq, List.range_succ_eq_map, List.map_cons]
  simp

theorem linspaceList_getLast (a b : ℚ) (n : ℕ) (h : 1 ≤ n) :
    (linspaceList a b n).getLast?
      = some (a + ((n : ℚ) - 1) * linStep a b n) := by
  obtain ⟨m, rfl⟩ : ∃ m, n = m + 1 := ⟨n - 1, by omega⟩
  rw [linspaceList_eq, List.range_succ, List.map_append, List.map_cons,
    List.map_nil, List.getLast?_concat]
  congr 1
  push_cast
  ring

theorem linspaceList_getLast_of_two_le (a b : ℚ) (n : ℕ) (h : 2 ≤ n) :
    (linspaceList a b n).getLast? = some b := by
  rw [linspaceList_getLast a b n (by omega)]
  have hne : ((n : ℚ) - 1) ≠ 0 := by
    have h2 : (2 : ℚ) ≤ (n : ℚ) := by exact_mod_cast h
    intro hc
    linarith
  have hcast : ((linspaceDivisor n : ℕ) : ℚ) = (n : ℚ) - 1 := by
    rw [linspaceDivisor_of_pos n (by omega),
      Nat.cast_sub (by omega : 1 ≤ n), Nat.cast_one]
  congr 1
  rw [linStep, hcast]
  field_simp

theorem linspaceList_chain_le (a b : ℚ) (n : ℕ) (hab : a ≤ b) :
    List.Chain' (· ≤ ·) (linspaceList a b n) := by
  have hstep : 0 ≤ linStep a b n := by
    apply div_nonneg (by linarith) (by positivity)
  rw [linspaceList_eq, List.chain'_map]
  cases n with
  | zero => simp
  | succ m =>
    rw [List.chain'_range_succ]
    intro j _
    push_cast
    nlinarith [hstep]

theorem linspaceList_chain_lt (a b : ℚ) (n : ℕ) (h2 : 2 ≤ n) (hab : a < b) :
    List.Chain' (· < ·) (linspaceList a b n) := by
  have hd : (0 : ℚ) < ((linspaceDivisor n : ℕ) : ℚ) := by
    rw [linspaceDivisor_of_pos n (by omega)]
    exact_mod_cast Nat.sub_pos_of_lt (by omega)
  have hstep : 0 < linStep a b n := div_pos (by linarith) hd
  rw [linspaceList_eq, List.chain'_map]
  obtain ⟨m, rfl⟩ : ∃ m, n = m + 1 := ⟨n - 1, by omega⟩
  rw [List.chain'_range_succ]
  intro j _
  push_cast
  nlinarith [hstep]

theorem linspaceList_chain_gt (a b : ℚ) (n : ℕ) (h2 : 2 ≤ n) (hab : b < a) :
    List.Chain' (· > ·) (linspaceList a b n) := by
  have hd : (0 : ℚ) < ((linspaceDivisor n : ℕ) : ℚ) := by
    rw [linspaceDivisor_of_pos n (by omega)]
    exact_mod_cast Nat.sub_pos_of_lt (by omega)
  have hstep : linStep a b n < 0 := div_neg_of_neg_of_pos (by linarith) hd
  rw [linspaceList_eq, List.chain'_map]
  obtain ⟨m, rfl⟩ : ∃ m, n = m + 1 := ⟨n - 1, by omega⟩
  rw [List.chain'_range_succ]
  intro j _
  push_cast
  nlinarith [hstep]

/-- Claim C8 (status: confirmed).  For every `a`, `b` and every `n ≥ 2`,
`linspace(a, b, n)` yields exactly `n` values, first `a`, last `b` (exact
over `ℚ`, which idealizes the spec's "within floating tolerance"), and is
strictly monotonic whenever `a ≠ b`; and `linspace(a, b, 1)` yields exactly
`[a]` for every `a`, `b`. -/
theorem linspace_len_first_last_mono (a b : ℚ) (n : ℕ) (h2 : 2 ≤ n) :
    (linspaceList a b n).length = n ∧
    (linspaceList a b n).head? = some a ∧
    (linspaceList a b n).getLast? = some b ∧
    (a ≠ b →
      List.Chain' (· < ·) (linspaceList a b n) ∨
        List.Chain' (· > ·) (linspaceList a b n)) ∧
    linspaceList a b 1 = [a] := by
  refine ⟨linspaceList_length a b n, linspaceList_head a b n (by omega),
    linspaceList_getLast_of_two_le a b n h2, ?_, linspaceList_one a b⟩
  intro hab
  rcases lt_or_gt_of_ne hab with h | h
  · exact Or.inl (linspaceList_chain_lt a b n h2 h)
  · exact Or.inr (linspaceList_chain_gt a b n h2 h)

/-- Witness for C8 at `a = 0`, `b = 10`, `n = 3`. -/
theorem linspace_len_first_last_mono_witness :
    2 ≤ 3 ∧
      ((linspaceList (0 : ℚ) 10 3).length = 3 ∧
        (linspaceList (0 : ℚ) 10 3).head? = some 0 ∧
        (linspaceList (0 : ℚ) 10 3).getLast? = some 10 ∧
        ((0 : ℚ) ≠ 10 →
          List.Chain' (· < ·) (linspaceList (0 : ℚ) 10 3) ∨
            List.Chain' (· > ·) (linspaceList (0 : ℚ) 10 3)) ∧
        linspaceList (0 : ℚ) 10 1 = [0]) :=
  ⟨by norm_num, linspace_len_first_last_mono 0 10 3 (by norm_num)⟩

/-! ## Knot-vector properties (C2) -/

theorem linspaceList_getLast_le (a b : ℚ) (n : ℕ) (h : 1 ≤ n) (hab : a ≤ b) :
    ∀ x ∈ (linspaceList a b n).getLast?, x ≤ b := by
  intro x hx
  rcases Nat.lt_or_ge n 2 with h1 | h2
  · have hn1 : n = 1 := by omega
    subst hn1
    rw [linspaceList_one] at hx
    have hax : a = x := by simpa using hx
    exact hax ▸ hab
  · rw [linspaceList_getLast_of_two_le a b n h2] at hx
    have hbx : b = x := by simpa using hx
    exact hbx ▸ le_rfl

/-- Claim C2 counterexample (status: corrected).  As stated, the claim
quantifies over every domain; at `domain = (-1, 1)`, `degree = 1`,
`npoints = 2` the produced vector is `[0, -1, 1, 1]`, which is not
non-decreasing (the `0` start pad precedes the interior value `-1`), so the
claimed conjunction fails. -/
theorem set_knots_not_monotone_on_negative_start :
    ¬ ((set_knots (-1, 1) 1 2).length = 2 + 1 + 1 ∧
        (set_knots (-1, 1) 1 2).take 1 = List.replicate 1 0 ∧
        (set_knots (-1, 1) 1 2).drop 2 = List.replicate 2 1 ∧
        List.Chain' (· ≤ ·) (set_knots (-1, 1) 1 2)) := by
  intro h
  have hs : set_knots (-1, 1) 1 2 = [0, -1, 1, 1] := by
    norm_num [set_knots, linspaceList_eq, usize_sub, List.range_succ,
      List.replicate]
  rw [hs] at h
  have hchain := h.2.2.2
  rw [List.chain'_cons] at hchain
  have : (0 : ℚ) ≤ -1 := hchain.1
  linarith

/-- Claim C2 amended (status: corrected).  For every degree `d`, `npoints
p ≥ d + 1`, and domain `(s, e)` with `0 ≤ s ≤ e` (the start pad is the
constant `0`, so non-decrease additionally needs `0 ≤ s`; every in-repo call
uses `s = 0`): `set_knots` returns a vector of length `p + d + 1` that is
non-decreasing, whose first `d` entries are the pad constant `0` and whose
last `d + 1` entries are `e`. -/
theorem set_knots_clamped_spec (s e : ℚ) (d p : ℕ)
    (hp : d + 1 ≤ p) (h0 : 0 ≤ s) (hse : s ≤ e) :
    (set_knots (s, e) d p).length = p + d + 1 ∧
    (set_knots (s, e) d p).take d = List.replicate d 0 ∧
    (set_knots (s, e) d p).drop p = List.replicate (d + 1) e ∧
    List.Chain' (· ≤ ·) (set_knots (s, e) d p) := by
  have hm : usize_sub p d = p - d := by
    simp [usize_sub, (by omega : d ≤ p)]
  have hm1 : 1 ≤ p - d := by omega
  have hlin1 : 1 ≤ usize_sub p d := by
    rw [hm]
    omega
  have hlin_ne : linspaceList s e (usize_sub p d) ≠ [] := by
    intro hc
    have := linspaceList_length s e (usize_sub p d)
    rw [hc] at this
    simp at this
    omega
  refine ⟨?_, ?_, ?_, ?_⟩
  · simp only [set_knots, List.length_append, List.length_replicate,
      linspaceList_length, hm]
    omega
  · rw [set_knots, List.append_assoc]
    exact List.take_left' (by simp)
  · rw [set_knots]
    exact List.drop_left' (by simp [linspaceList_length, hm]; omega)
  · rw [set_knots, List.chain'_append]
    refine ⟨?_, List.chain'_replicate_of_rel (d + 1) le_rfl, ?_⟩
    · rw [List.chain'_append]
      refine ⟨List.chain'_replicate_of_rel d le_rfl,
        linspaceList_chain_le s e _ hse, ?_⟩
      intro x hx y hy
      rw [List.getLast?_replicate] at hx
      by_cases hd : d = 0
      · subst hd
        simp at hx
      · simp only [hd, if_false, Option.mem_def, Option.some.injEq] at hx
        rw [linspaceList_head s e _ hlin1] at hy
        have hys : s = y := by simpa using hy
        have hx0 : x = 0 := by simpa using hx.symm
        rw [← hys, hx0]
        exact h0
    · intro x hx y hy
      have hyhead : (List.replicate (d + 1) e).head? = some e := by
        simp [List.head?_replicate]
      rw [hyhead] at hy
      have hye : e = y := by simpa using hy
      rw [List.getLast?_append_of_ne_nil _ hlin_ne] at hx
      rw [← hye]
      exact linspaceList_getLast_le s e _ hlin1 hse x hx

/-- Witness for the amended C2 at the spec's scenario B:
`knots((0, 10), 4, 10)`. -/
theorem set_knots_clamped_spec_witness :
    (4 + 1 ≤ 10 ∧ (0 : ℚ) ≤ 0 ∧ (0 : ℚ) ≤ 10) ∧
      ((set_knots (0, 10) 4 10).length = 10 + 4 + 1 ∧
        (set_knots (0, 10) 4 10).take 4 = List.replicate 4 0 ∧
        (set_knots (0, 10) 4 10).drop 10 = List.replicate (4 + 1) 10 ∧
        List.Chain' (· ≤ ·) (set_knots (0, 10) 4 10)) :=
  ⟨⟨by norm_num, le_rfl, by norm_num⟩,
    set_knots_clamped_spec 0 10 4 10 (by norm_num) le_rfl (by norm_num)⟩

/-! ## Noise displacement (C6) and stroke sampling (C4, C7)

The Perlin noise field is an abstract parameter `noise : ℚ → ℚ → ℚ → ℚ`
(`model.noise.get([x, y, z])`), the `bspline` crate's evaluator an abstract
`splinePt : ℚ → ℚ × ℚ` (`spline.point(t)`), and the seeded `SmallRng` an
abstract draw stream `stream : ℕ → ℚ` read at a cursor counting `rng.gen`
calls. -/

/-- The x-channel z-coordinate `1.0 + 0.002 * (i_line * 2)` of the noise
sample in `src/aeye/src/main.rs:164`. -/
def zX (i : ℕ) : ℚ := 1 + (1 / 500) * (2 * (i : ℚ))

/-- The y-channel z-coordinate `-1.0 + 0.002 * (i_line * 2 + 1)` of the noise
sample in `src/aeye/src/main.rs:169`. -/
def zY (i : ℕ) : ℚ := -1 + (1 / 500) * (2 * (i : ℚ) + 1)

/-- The per-point displacement of the `aeye` stroke loop
(`src/aeye/src/main.rs:161-172`): sample the noise field at `(x, y, zX i)`
and `(x, y, zY i)` and add the offset scaled by `magnitude`. -/
def displaceAeye (noise : ℚ → ℚ → ℚ → ℚ) (p : ℚ × ℚ) (i : ℕ) (mag : ℚ) :
    ℚ × ℚ :=
  (p.1 + noise p.1 p.2 (zX i) * mag, p.2 + noise p.1 p.2 (zY i) * mag)

/-- The displacement contract exactly as the spec words it ("one at
`(x, y, base_z + k1*stroke_index)` for the x-offset, one at
`(x, y, -base_z + k2*stroke_index)` for the y-offset"), for comparison with
`displaceAeye`. -/
def displaceClaimForm (base k1 k2 : ℚ) (noise : ℚ → ℚ → ℚ → ℚ)
    (p : ℚ × ℚ) (i : ℕ) (mag : ℚ) : ℚ × ℚ :=
  (p.1 + noise p.1 p.2 (base + k1 * (i : ℚ)) * mag,
   p.2 + noise p.1 p.2 (-base + k2 * (i : ℚ)) * mag)

/-- The displacement contract amended to the schedule the code actually
uses: the two z-coordinates step along the doubled index, `base + k * 2i`
and `-base + k * (2i + 1)`. -/
def displaceSpecForm (base k : ℚ) (noise : ℚ → ℚ → ℚ → ℚ)
    (p : ℚ × ℚ) (i : ℕ) (mag : ℚ) : ℚ × ℚ :=
  (p.1 + noise p.1 p.2 (base + k * (2 * (i : ℚ))) * mag,
   p.2 + noise p.1 p.2 (-base + k * (2 * (i : ℚ) + 1)) * mag)

/-- Claim C6 counterexample (status: corrected).  No constants `base_z`, `k1`,
`k2` realize the claimed sample positions: the x-sample at `i = 0` forces
`base_z = 1`, but the y-sample at `i = 0` sits at `-0.998 ≠ -base_z`
(the code offsets the y-channel by the extra half-step `0.002 * 1`).
Refuted with the noise field that returns its own z-coordinate, at
`p = (0, 0)`, `i = 0`, `magnitude = 1`. -/
theorem displace_has_no_claim_form_constants :
    ¬ (∃ base k1 k2 : ℚ, ∀ (noise : ℚ → ℚ → ℚ → ℚ) (p : ℚ × ℚ) (i : ℕ)
        (mag : ℚ),
        displaceAeye noise p i mag = displaceClaimForm base k1 k2 noise p i mag) := by
  rintro ⟨base, k1, k2, h⟩
  have h0 := h (fun _ _ z => z) (0, 0) 0 1
  rw [Prod.ext_iff] at h0
  obtain ⟨h1, h2⟩ := h0
  simp only [displaceAeye, displaceClaimForm, zX, zY] at h1 h2
  norm_num at h1 h2
  linarith

/-- Claim C6 amended (status: corrected).  The displacement samples the noise
field exactly twice, at `(x, y, base_z + k*(2i))` for the x-offset and
`(x, y, -base_z + k*(2i+1))` for the y-offset with the fixed constants
`base_z = 1`, `k = 0.002`, and returns `p + (dx, dy) * magnitude`; it is a
pure function of `(p, i, magnitude)` and the noise field, with no
randomness involved. -/
theorem displace_matches_doubled_index_schedule
    (noise : ℚ → ℚ → ℚ → ℚ) (p : ℚ × ℚ) (i : ℕ) (mag : ℚ) :
    displaceAeye noise p i mag = displaceSpecForm 1 (1 / 500) noise p i mag := by
  simp only [displaceAeye, displaceSpecForm, zX, zY]

/-- Output of sampling one stroke: the emitted point cloud, the trace of
RNG values drawn, and the final RNG cursor. -/
structure SampleOut where
  pts : List (ℚ × ℚ)
  draws : List ℚ
  cursor : ℕ

/-- The grain loop body of `draw_spline`
(`src/sand_spline/src/main.rs:75-78`, `src/aeye/src/main.rs:184-187`): for
each parameter index `p`, evaluate the spline and add the jitter
`(rng.gen(), rng.gen()) * 1.5`, consuming two RNG draws in order. -/
def sampleGo (pointAt : ℕ → ℚ × ℚ) (stream : ℕ → ℚ) :
    List ℕ → ℕ → SampleOut
  | [], c => ⟨[], [], c⟩
  | p :: rest, c =>
    let g1 := stream c
    let g2 := stream (c + 1)
    let pt := ((pointAt p).1 + g1 * (3 / 2), (pointAt p).2 + g2 * (3 / 2))
    let out := sampleGo pointAt stream rest (c + 2)
    ⟨pt :: out.pts, g1 :: g2 :: out.draws, out.cursor⟩

/-- Sampling one stroke: `(0..n_grains).map(|p| spline.point((p as f32 /
n_grains as f32) * knot_range + knot_domain.0) + jitter)`. -/
def sampleGrains (splinePt : ℚ → ℚ × ℚ) (dom : ℚ × ℚ) (n_grains : ℕ)
    (stream : ℕ → ℚ) (c : ℕ) : SampleOut :=
  sampleGo
    (fun p => splinePt (((p : ℚ) / (n_grains : ℚ)) * (dom.2 - dom.1) + dom.1))
    stream (List.range n_grains) c

theorem sampleGo_cursor (pointAt : ℕ → ℚ × ℚ) (stream : ℕ → ℚ) :
    ∀ (idxs : List ℕ) (c : ℕ),
      (sampleGo pointAt stream idxs c).cursor = c + 2 * idxs.length := by
  intro idxs
  induction idxs with
  | nil => intro c; simp [sampleGo]
  | cons p rest ih =>
    intro c
    simp only [sampleGo, ih (c + 2), List.length_cons]
    omega

theorem sampleGo_draws_indep (pointAt pointAt' : ℕ → ℚ × ℚ)
    (stream : ℕ → ℚ) :
    ∀ (idxs : List ℕ) (c : ℕ),
      (sampleGo pointAt stream idxs c).draws
        = (sampleGo pointAt' stream idxs c).draws := by
  intro idxs
  induction idxs with
  | nil => intro c; rfl
  | cons p rest ih =>
    intro c
    simp only [sampleGo, ih (c + 2)]

/-- Output of a full `draw_spline` call: the per-stroke point clouds, the
RNG draw trace, and the final RNG cursor. -/
structure DrawOut where
  clouds : List (List (ℚ × ℚ))
  draws : List ℚ
  cursor : ℕ

/-- The `for i_line in 0..n_lines` loop of `draw_spline`
(`src/sand_spline/src/main.rs:51-79`, `src/aeye/src/main.rs:159-188`):
sample one stroke per line index, threading the RNG cursor left to right. -/
def linesGo (sampleAt : ℕ → ℕ → SampleOut) :
    List ℕ → ℕ → DrawOut
  | [], c => ⟨[], [], c⟩
  | i :: rest, c =>
    let s := sampleAt i c
    let out := linesGo sampleAt rest s.cursor
    ⟨s.pts :: out.clouds, s.draws ++ out.draws, out.cursor⟩

/-- The function `draw_spline` of `aeye` (`src/aeye/src/main.rs:143-189`): build the
knot vector from the shape length, then for each `i_line` displace every
shape point with `displaceAeye`, build the spline (abstract evaluator
`splinePoint` applied to the displaced control points and the knots, with
`splineDomain` standing for `spline.knot_domain()`), and sample `n_grains`
jittered points from the session RNG at cursor `c` (`model.rng` is taken by
mutable reference, so the returned cursor is the model's new cursor). -/
def draw_spline_aeye (noise : ℚ → ℚ → ℚ → ℚ)
    (splinePoint : List (ℚ × ℚ) → List ℚ → ℚ → ℚ × ℚ)
    (splineDomain : List ℚ → ℚ × ℚ)
    (shape_points : List (ℚ × ℚ)) (n_lines n_grains : ℕ) (mag : ℚ)
    (stream : ℕ → ℚ) (c : ℕ) : DrawOut :=
  let knots := set_knots (0, (shape_points.length : ℚ)) 4 shape_points.length
  linesGo
    (fun i cur =>
      let points := shape_points.map (fun p => displaceAeye noise p i mag)
      sampleGrains (splinePoint points knots) (splineDomain knots)
        n_grains stream cur)
    (List.range n_lines) c

theorem linesGo_clouds_empty (sampleAt : ℕ → ℕ → SampleOut)
    (hempty : ∀ i c, (sampleAt i c).pts = []) :
    ∀ (idxs : List ℕ) (c : ℕ),
      ∀ cloud ∈ (linesGo sampleAt idxs c).clouds, cloud = [] := by
  intro idxs
  induction idxs with
  | nil =>
    intro c cloud hc
    simp [linesGo] at hc
  | cons i rest ih =>
    intro c cloud hc
    simp only [linesGo, List.mem_cons] at hc
    rcases hc with hc | hc
    · rw [hc, hempty]
    · exact ih _ cloud hc

theorem linesGo_cursor (sampleAt : ℕ → ℕ → SampleOut) (k : ℕ)
    (hstep : ∀ i c, (sampleAt i c).cursor = c + k) :
    ∀ (idxs : List ℕ) (c : ℕ),
      (linesGo sampleAt idxs c).cursor = c + idxs.length * k := by
  intro idxs
  induction idxs with
  | nil => intro c; simp [linesGo]
  | cons i rest ih =>
    intro c
    simp only [linesGo, ih, hstep, List.length_cons]
    ring

/-- Claim C4 (status: confirmed).  Sampling one stroke with sample count
`n_grains` advances the RNG cursor by exactly `2 * n_grains` draws, and a
full `aeye` `draw_spline` call (which samples from the session's
`model.rng` in place) moves the session cursor from `c` to
`c + n_lines * 2 * n_grains` — each of its `n_lines` strokes advancing it
by exactly `2 * n_grains`. -/
theorem stroke_advances_rng_two_per_grain
    (splinePt : ℚ → ℚ × ℚ) (dom : ℚ × ℚ) (n_grains : ℕ)
    (stream : ℕ → ℚ) (c : ℕ) (noise : ℚ → ℚ → ℚ → ℚ)
    (splinePoint : List (ℚ × ℚ) → List ℚ → ℚ → ℚ × ℚ)
    (splineDomain : List ℚ → ℚ × ℚ)
    (shape_points : List (ℚ × ℚ)) (n_lines : ℕ) (mag : ℚ) (c' : ℕ) :
    (sampleGrains splinePt dom n_grains stream c).cursor = c + 2 * n_grains ∧
    (draw_spline_aeye noise splinePoint splineDomain shape_points n_lines
        n_grains mag stream c').cursor = c' + n_lines * (2 * n_grains) := by
  constructor
  · rw [sampleGrains, sampleGo_cursor, List.length_range]
  · rw [draw_spline_aeye]
    rw [linesGo_cursor _ (2 * n_grains)
      (fun i cur => by rw [sampleGrains, sampleGo_cursor, List.length_range])]
    rw [List.length_range]

/-- Claim C7 (status: confirmed).  A stroke sampled with `n_grains = 0` emits
an empty point cloud and leaves the RNG cursor unchanged (the grain range
`0..0` is empty, so neither the parameter division `p / n_grains` nor a
spline evaluation nor an RNG draw ever happens); a whole `draw_spline` call
with `n_grains = 0` likewise emits only empty clouds and returns the cursor
it was given. -/
theorem stroke_zero_grains_noop
    (splinePt : ℚ → ℚ × ℚ) (dom : ℚ × ℚ) (stream : ℕ → ℚ) (c : ℕ)
    (noise : ℚ → ℚ → ℚ → ℚ)
    (splinePoint : List (ℚ × ℚ) → List ℚ → ℚ → ℚ × ℚ)
    (splineDomain : List ℚ → ℚ × ℚ)
    (shape_points : List (ℚ × ℚ)) (n_lines : ℕ) (mag : ℚ) (c' : ℕ) :
    (sampleGrains splinePt dom 0 stream c).pts = [] ∧
    (sampleGrains splinePt dom 0 stream c).cursor = c ∧
    (draw_spline_aeye noise splinePoint splineDomain shape_points n_lines
        0 mag stream c').cursor = c' ∧
    ∀ cloud ∈ (draw_spline_aeye noise splinePoint splineDomain shape_points
        n_lines 0 mag stream c').clouds, cloud = [] := by
  refine ⟨rfl, rfl, ?_, ?_⟩
  · rw [draw_spline_aeye]
    rw [linesGo_cursor _ 0 (fun i cur => by
      rw [sampleGrains, sampleGo_cursor, List.length_range])]
    simp
  · rw [draw_spline_aeye]
    exact linesGo_clouds_empty _ (fun i cur => rfl) (List.range n_lines) c'

/-! ## Frame phases and noise z-coordinates (C3) -/

/-- The x-channel z-coordinates consumed by one `draw_spline` call drawing
`n_lines` strokes: `zX i_line` for `i_line in 0..n_lines`. -/
def zXList (n_lines : ℕ) : List ℚ := (List.range n_lines).map zX

/-- The y-channel z-coordinates of one `draw_spline` call. -/
def zYList (n_lines : ℕ) : List ℚ := (List.range n_lines).map zY

/-- The x-channel noise z-coordinates used at frame `nth` of `aeye`'s
`update` dispatch (`src/aeye/src/main.rs:207-275`): frame 0 (outer edge)
draws 400 lines, frames `1..=200` (iris) draw 100 lines each, frame 201
(pupil) draws 200 then `200 * 2` lines, later frames draw nothing.  The
stroke index `i_line` restarts at 0 inside every `draw_spline` call. -/
def frameZXs (nth : ℕ) : List ℚ :=
  if nth = 0 then zXList 400
  else if nth ≤ 200 then zXList 100
  else if nth = 201 then zXList 200 ++ zXList (200 * 2)
  else []

/-- The y-channel analogue of `frameZXs`. -/
def frameZYs (nth : ℕ) : List ℚ :=
  if nth = 0 then zYList 400
  else if nth ≤ 200 then zYList 100
  else if nth = 201 then zYList 200 ++ zYList (200 * 2)
  else []

/-- Claim C3 counterexample (status: corrected).  The claim — that during the
iris phase the noise z-coordinates are keyed by a globally increasing stroke
index, so distinct frames never reuse a z-coordinate — is false: `i_line`
restarts at 0 in every `draw_spline` call, so frames 1 and 2 both sample the
noise field at `z = zX 0 = 1`. -/
theorem iris_frames_reuse_noise_z :
    ¬ (∀ n₁ n₂ : ℕ, 1 ≤ n₁ → n₁ ≤ 200 → 1 ≤ n₂ → n₂ ≤ 200 → n₁ ≠ n₂ →
        ∀ z : ℚ, z ∈ frameZXs n₁ → z ∉ frameZXs n₂) := by
  intro h
  have h1 : frameZXs 1 = zXList 100 := by norm_num [frameZXs]
  have h2 : frameZXs 2 = zXList 100 := by norm_num [frameZXs]
  have hmem : (1 : ℚ) ∈ zXList 100 :=
    List.mem_map.mpr ⟨0, List.mem_range.mpr (by norm_num), by norm_num [zX]⟩
  exact h 1 2 (by norm_num) (by norm_num) (by norm_num) (by norm_num)
    (by norm_num) 1 (h1 ▸ hmem) (h2 ▸ hmem)

/-- Claim C3 amended (status: corrected).  During the iris-accumulation phase
(frame index `nth` in `[1, 200]`) the third noise coordinate is keyed by the
per-call stroke index `i_line`, which restarts at 0 in every `draw_spline`
call; hence every iris frame uses the identical z-coordinate lists
`zX i = 1 + 0.002 * 2i` and `zY i = -1 + 0.002 * (2i + 1)` for
`i in 0..100`, rather than globally fresh ones. -/
theorem iris_z_keyed_by_per_call_index (nth : ℕ)
    (hlo : 1 ≤ nth) (hhi : nth ≤ 200) :
    frameZXs nth = zXList 100 ∧ frameZYs nth = zYList 100 ∧
    frameZXs nth = frameZXs 1 ∧ frameZYs nth = frameZYs 1 := by
  have hx : frameZXs nth = zXList 100 := by
    rw [frameZXs, if_neg (by omega), if_pos hhi]
  have hy : frameZYs nth = zYList 100 := by
    rw [frameZYs, if_neg (by omega), if_pos hhi]
  have hx1 : frameZXs 1 = zXList 100 := by norm_num [frameZXs]
  have hy1 : frameZYs 1 = zYList 100 := by norm_num [frameZYs]
  exact ⟨hx, hy, by rw [hx, hx1], by rw [hy, hy1]⟩

/-- Witness for the amended C3 at the iris frame `nth = 150`. -/
theorem iris_z_keyed_by_per_call_index_witness :
    (1 ≤ 150 ∧ 150 ≤ 200) ∧
      (frameZXs 150 = zXList 100 ∧ frameZYs 150 = zYList 100 ∧
        frameZXs 150 = frameZXs 1 ∧ frameZYs 150 = frameZYs 1) :=
  ⟨⟨by norm_num, by norm_num⟩,
    iris_z_keyed_by_per_call_index 150 (by norm_num) (by norm_num)⟩

/-! ## Closed-shape generation and the wrap margin (C9) -/

/-- The function `gen_circle_points(n_control_points, radius)` of `sand_spline`
(`src/sand_spline/src/main.rs:27-43`).  nannou's
`Ellipse { .. }.circumference()` is an external collaborator; per the spec's
§4.2 contract it yields `resolution` evenly spaced boundary points, modelled
by the abstract `circ : ℕ → ℚ × ℚ` giving the `i`-th point (radius folded
into `circ`).  The wrap count `(n as f32 * 0.3) as usize` is `⌊n * 3/10⌋`;
the first `n_wrap` points are copied and appended. -/
def gen_circle_points (circ : ℕ → ℚ × ℚ) (n_control_points : ℕ) :
    List (ℚ × ℚ) :=
  let shape_points := (List.range n_control_points).map circ
  let n_wrap := (⌊(n_control_points : ℚ) * (3 / 10)⌋).toNat
  shape_points ++ shape_points.take n_wrap

/-- The function `gen_circle_points(n_control_points, min_dim, radius_fac)` of `aeye`
(`src/aeye/src/main.rs:113-130`): identical wrap logic with the fraction
`0.25` (the radius `min_dim * radius_fac` is folded into `circ`). -/
def gen_circle_points_aeye (circ : ℕ → ℚ × ℚ) (n_control_points : ℕ) :
    List (ℚ × ℚ) :=
  let shape_points := (List.range n_control_points).map circ
  let n_wrap := (⌊(n_control_points : ℚ) * (1 / 4)⌋).toNat
  shape_points ++ shape_points.take n_wrap

theorem wrap_count_le (r : ℕ) (f : ℚ) (h1 : f ≤ 1) :
    (⌊(r : ℚ) * f⌋).toNat ≤ r := by
  have hr : (0 : ℚ) ≤ (r : ℚ) := Nat.cast_nonneg r
  have hle : (r : ℚ) * f ≤ (r : ℚ) := by nlinarith
  have hfl := Int.floor_le_floor hle
  rw [Int.floor_natCast] at hfl
  omega

/-- Claim C9 (status: confirmed).  For every resolution `r`, the closed
circular shape generator returns `r + ⌊r * wrap_fraction⌋` points whose last
`⌊r * wrap_fraction⌋` points equal the first points of the unwrapped
circumference sequence, with `wrap_fraction = 0.3` (`sand_spline`) and
`0.25` (`aeye`); in particular at `r = 8` with fraction `0.3` the output has
length 10 and its last 2 points are the unwrapped sequence's first 2. -/
theorem gen_circle_points_wrap_spec (circ : ℕ → ℚ × ℚ) (r : ℕ) :
    (gen_circle_points circ r).length
      = r + (⌊(r : ℚ) * (3 / 10)⌋).toNat ∧
    (gen_circle_points circ r).drop r
      = ((List.range r).map circ).take (⌊(r : ℚ) * (3 / 10)⌋).toNat ∧
    (gen_circle_points_aeye circ r).length
      = r + (⌊(r : ℚ) * (1 / 4)⌋).toNat ∧
    (gen_circle_points_aeye circ r).drop r
      = ((List.range r).map circ).take (⌊(r : ℚ) * (1 / 4)⌋).toNat ∧
    (gen_circle_points circ 8).length = 10 ∧
    (gen_circle_points circ 8).drop 8 = ((List.range 8).map circ).take 2 := by
  have hw3 : (⌊(r : ℚ) * (3 / 10)⌋).toNat ≤ r :=
    wrap_count_le r (3 / 10) (by norm_num)
  have hw4 : (⌊(r : ℚ) * (1 / 4)⌋).toNat ≤ r :=
    wrap_count_le r (1 / 4) (by norm_num)
  have h8 : (⌊((8 : ℕ) : ℚ) * (3 / 10)⌋).toNat = 2 := by
    have hfl : (⌊((8 : ℕ) : ℚ) * (3 / 10)⌋) = 2 := by
      push_cast
      norm_num
    rw [hfl]
    rfl
  refine ⟨?_, ?_, ?_, ?_, ?_, ?_⟩
  · simp only [gen_circle_points, List.length_append, List.length_take,
      List.length_map, List.length_range]
    omega
  · exact List.drop_left' (by simp)
  · simp only [gen_circle_points_aeye, List.length_append, List.length_take,
      List.length_map, List.length_range]
    omega
  · exact List.drop_left' (by simp)
  · simp only [gen_circle_points, List.length_append, List.length_take,
      List.length_map, List.length_range, h8]
    omega
  · rw [show ((List.range 8).map circ).take 2
        = ((List.range 8).map circ).take (⌊((8 : ℕ) : ℚ) * (3 / 10)⌋).toNat by
          rw [h8]]
    exact List.drop_left' (by simp)

/-! ## The animated variant's model is never mutated by drawing (C10) -/

/-- The `Model` of `sand_spline` (`src/sand_spline/src/main.rs:82-91`).  The
RNG is represented by its cursor into the abstract draw stream; the `noise`
field (a stateless `Perlin`) is passed separately as a function; `color` is
an RGBA quadruple. -/
structure SandModel where
  rng : ℕ
  radius : ℚ
  n_lines : ℕ
  n_grains : ℕ
  magnitude : ℚ
  color : ℚ × ℚ × ℚ × ℚ
  offset : ℚ

/-- The per-point displacement of the `sand_spline` stroke loop
(`src/sand_spline/src/main.rs:54-64`): z-coordinates
`offset + 0.001 * (i_line * 2)` and `-offset + 0.001 * (i_line * 2 + 1)`. -/
def displaceSand (noise : ℚ → ℚ → ℚ → ℚ) (offset mag : ℚ)
    (p : ℚ × ℚ) (i : ℕ) : ℚ × ℚ :=
  (p.1 + noise p.1 p.2 (offset + (1 / 1000) * (2 * (i : ℚ))) * mag,
   p.2 + noise p.1 p.2 (-offset + (1 / 1000) * (2 * (i : ℚ) + 1)) * mag)

/-- The function `draw_spline(model: &Model, draw: &Draw)` of `sand_spline`
(`src/sand_spline/src/main.rs:45-80`): the model is taken by shared
reference, and the RNG used for jitter is a local clone
(`model.rng.to_owned()`, line 49) starting at the model's cursor — the
function returns only the drawn output, never a modified model.
`circ` abstracts the ellipse circumference
(radius applied first), `splinePoint`/`splineDomain` the `bspline` crate. -/
def draw_spline_sand (noise : ℚ → ℚ → ℚ → ℚ)
    (splinePoint : List (ℚ × ℚ) → List ℚ → ℚ → ℚ × ℚ)
    (splineDomain : List ℚ → ℚ × ℚ)
    (circ : ℚ → ℕ → ℚ × ℚ) (stream : ℕ → ℚ) (m : SandModel) : DrawOut :=
  let shape := gen_circle_points (circ m.radius) 10
  let knots := set_knots (0, (shape.length : ℚ)) 4 shape.length
  linesGo
    (fun i cur =>
      let points := shape.map
        (fun p => displaceSand noise m.offset m.magnitude p i)
      sampleGrains (splinePoint points knots) (splineDomain knots)
        m.n_grains stream cur)
    (List.range m.n_lines) m.rng

/-- The function `update` of `sand_spline` (`src/sand_spline/src/main.rs:121-124`): only
the noise drift `offset` is reassigned, from the easing function of the
frame counter (`ease::sine::ease_in_out`, abstract). -/
def update_sand (ease : ℕ → ℚ) (nth : ℕ) (m : SandModel) : SandModel :=
  { m with offset := ease nth }

/-- The model as it stands before frame `n`: the initial model after `n`
`update` steps (the per-frame `view` only reads the model). -/
def sessionModel (ease : ℕ → ℚ) (m0 : SandModel) : ℕ → SandModel
  | 0 => m0
  | n + 1 => update_sand ease n (sessionModel ease m0 n)

theorem sessionModel_fields (ease : ℕ → ℚ) (m0 : SandModel) :
    ∀ n : ℕ, (sessionModel ease m0 n).rng = m0.rng ∧
      (sessionModel ease m0 n).radius = m0.radius ∧
      (sessionModel ease m0 n).n_lines = m0.n_lines ∧
      (sessionModel ease m0 n).n_grains = m0.n_grains ∧
      (sessionModel ease m0 n).magnitude = m0.magnitude ∧
      (sessionModel ease m0 n).color = m0.color := by
  intro n
  induction n with
  | zero => exact ⟨rfl, rfl, rfl, rfl, rfl, rfl⟩
  | succ k ih => simpa [sessionModel, update_sand] using ih

theorem linesGo_draws_congr (f g : ℕ → ℕ → SampleOut)
    (h : ∀ i c, (f i c).draws = (g i c).draws ∧
      (f i c).cursor = (g i c).cursor) :
    ∀ (idxs : List ℕ) (c : ℕ),
      (linesGo f idxs c).draws = (linesGo g idxs c).draws := by
  intro idxs
  induction idxs with
  | nil => intro c; rfl
  | cons i rest ih =>
    intro c
    simp only [linesGo]
    rw [(h i c).1, (h i c).2, ih]

/-- The RNG draw trace of a `sand_spline` frame depends only on the model's
RNG cursor and the stroke/grain counts — not on `offset`, `radius` or
`magnitude`. -/
theorem draw_spline_sand_draws_congr (noise : ℚ → ℚ → ℚ → ℚ)
    (splinePoint : List (ℚ × ℚ) → List ℚ → ℚ → ℚ × ℚ)
    (splineDomain : List ℚ → ℚ × ℚ) (circ : ℚ → ℕ → ℚ × ℚ)
    (stream : ℕ → ℚ) (m m' : SandModel)
    (hr : m.rng = m'.rng) (hl : m.n_lines = m'.n_lines)
    (hg : m.n_grains = m'.n_grains) :
    (draw_spline_sand noise splinePoint splineDomain circ stream m).draws
      = (draw_spline_sand noise splinePoint splineDomain circ stream m').draws := by
  rw [draw_spline_sand, draw_spline_sand, hr, hl]
  apply linesGo_draws_congr
  intro i c
  constructor
  · rw [sampleGrains, sampleGrains, hg]
    apply sampleGo_draws_indep
  · rw [sampleGrains, sampleGrains, hg, sampleGo_cursor, sampleGo_cursor]

/-- Claim C10 (status: confirmed).  In `sand_spline`, `draw_spline` takes the
model by shared reference and jitters from a local clone of the seeded RNG
(`draw_spline_sand` consumes `m.rng` without producing a new model), `update`
reassigns only `offset`, so across the whole session the model's RNG cursor
never advances — and every frame, rendered from the session model of any
step `n`, consumes the identical per-point jitter draw sequence as frame 0. -/
theorem sand_model_rng_never_advanced (noise : ℚ → ℚ → ℚ → ℚ)
    (splinePoint : List (ℚ × ℚ) → List ℚ → ℚ → ℚ × ℚ)
    (splineDomain : List ℚ → ℚ × ℚ) (circ : ℚ → ℕ → ℚ × ℚ)
    (stream : ℕ → ℚ) (ease : ℕ → ℚ) (m0 : SandModel) (n : ℕ) :
    (sessionModel ease m0 n).rng = m0.rng ∧
    (draw_spline_sand noise splinePoint splineDomain circ stream
        (sessionModel ease m0 n)).draws
      = (draw_spline_sand noise splinePoint splineDomain circ stream m0).draws := by
  obtain ⟨h1, _, h3, h4, _, _⟩ := sessionModel_fields ease m0 n
  exact ⟨h1, draw_spline_sand_draws_congr noise splinePoint splineDomain circ
    stream _ m0 h1 h3 h4⟩
